import Mathlib

/-!
# Verification of `raycast-search-projects` (src/src/search-projects.tsx)

Shallow embedding of the extension's logic in Lean 4.

Modelling conventions:
* JavaScript strings are modelled as `List Char`.  Case mapping
  (`String.prototype.toLowerCase`, the regex `i` flag) is modelled with
  `Char.toLower`, which agrees with JavaScript on ASCII.
* The regular expression built in `filteredProjects`
  (`new RegExp([...searchTerm].map(escapeRegex).join(".*"), "i")`) only ever
  consists of individually escaped literal characters joined by `.*`; its
  matching semantics is embedded directly (`rgxMatch`/`rgxTest`), with the
  JavaScript behaviour that `.` does not match line terminators
  (`\n`, `\r`, U+2028, U+2029) and that `RegExp.prototype.test` is an
  unanchored search.  The pattern *string* itself and its interpretation are
  modelled separately (`buildPattern`, `tokenizePattern`, `toksTest`) to
  reason about `escapeRegex`.
* `Array.prototype.sort` is stable (ECMAScript 2019 and later) and the
  comparator in `filteredProjects` is consistent (it is induced by a
  three-valued key, see `sortKey`), so the sort is modelled by the stable
  `List.insertionSort r` with `r a b := cmpProjects search a b ≤ 0`.
* Filesystem effects in `getProjects` are modelled by passing the outcome of
  the `readdirSync` call (`none` = the call threw) and, per entry, the
  outcome of the `statSync` call (`none` = it threw, `some b` =
  `isDirectory()` returned `b`) as data.
* `path.join` is modelled for plain (possibly empty) segments: empty parts
  are dropped and parts are joined with `/`; `path.join("", "")` is `"."`.
  Node's `.`/`..`/duplicate-separator normalisation is not modelled, so
  `pathJoin` is guaranteed to agree with `path.join` only when the nonempty
  arguments are made of plain segments (see `plainSegment`): the theorem
  about `searchInProjectQuery`, whose truth depends on the joined string,
  carries explicit `plainSegment` hypotheses confining it to that domain,
  and the configured root directory is treated as an opaque absolute path.
-/

/-- `Char.toLower` of every character, i.e. `String.prototype.toLowerCase`
(faithful on ASCII). -/
def lowerL (s : List Char) : List Char := s.map Char.toLower

/-- A pattern character (a literal in the built regex) matches a subject
character under the `i` flag: equal up to case. -/
def charMatches (p c : Char) : Bool := p.toLower == c.toLower

/-- Whether `.` (without the `s` flag) matches a character: everything except
the four line terminators. -/
def dotMatches (c : Char) : Bool :=
  !(c == '\n' || c == '\r' || c == '\u2028' || c == '\u2029')

/-- `startsWithL needle hay`: `hay` starts with `needle` (exact character
equality). -/
def startsWithL : List Char → List Char → Bool
  | [], _ => true
  | _ :: _, [] => false
  | a :: as, b :: bs => a == b && startsWithL as bs

/-- `containsL hay needle`: `needle` occurs contiguously in `hay`
(`String.prototype.includes`). -/
def containsL : List Char → List Char → Bool
  | [], needle => startsWithL needle []
  | h :: t, needle => startsWithL needle (h :: t) || containsL t needle

/-- `rgxStar f n`: the regex fragment `.*P` matches a prefix of `n`, where
`f m` says that `P` matches a prefix of `m`.  The `.*` may consume any number
of `dotMatches` characters. -/
def rgxStar (f : List Char → Bool) : List Char → Bool
  | [] => f []
  | c :: cs => f (c :: cs) || (dotMatches c && rgxStar f cs)

/-- `rgxMatch q n`: the pattern obtained by joining the (escaped, hence
literal) characters of `q` with `.*` matches a prefix of `n`. -/
def rgxMatch : List Char → List Char → Bool
  | [], _ => true
  | _ :: _, [] => false
  | p :: ps, c :: cs => charMatches p c && rgxStar (rgxMatch ps) cs

/-- `rgxTest q n`: `searchRgx.test(n)` for
`searchRgx = new RegExp([...q].map(escapeRegex).join(".*"), "i")` — an
unanchored search: the pattern may match starting at any position of `n`. -/
def rgxTest (q : List Char) : List Char → Bool
  | [] => rgxMatch q []
  | c :: cs => rgxMatch q (c :: cs) || rgxTest q cs

/-- The spec's notion: the characters of `q` appear in `n` in order
(case-insensitively), with arbitrary characters in between. -/
def isSubseqCI : List Char → List Char → Bool
  | [], _ => true
  | _ :: _, [] => false
  | p :: ps, c :: cs => (charMatches p c && isSubseqCI ps cs) || isSubseqCI (p :: ps) cs

/-- The character class of `escapeRegex`: `[.*+?^${}()|[\]\\]`. -/
def isRegexMeta (c : Char) : Bool :=
  c == '.' || c == '*' || c == '+' || c == '?' || c == '^' || c == '$' ||
  c == '\x7b' || c == '\x7d' || c == '(' || c == ')' || c == '|' ||
  c == '[' || c == ']' || c == '\\'

/-- `escapeRegex(x)`: `x.replace(/[.*+?^${}()|[\]\\]/g, "\\$&")` — prefix
every regex metacharacter with a backslash. -/
def escapeRegex (x : List Char) : List Char :=
  x.flatMap fun c => if isRegexMeta c then ['\\', c] else [c]

/-- The pattern string `[...q].map(escapeRegex).join(".*")`. -/
def buildPattern : List Char → List Char
  | [] => []
  | [c] => escapeRegex [c]
  | c :: d :: rest => escapeRegex [c] ++ '.' :: '*' :: buildPattern (d :: rest)

/-- Tokens of the regex fragment generated by `buildPattern`: a literal
character, or the wildcard-star `.*`. -/
inductive RTok where
  | lit (c : Char)
  | anyStar
deriving DecidableEq

/-- Parse a pattern string of the generated fragment.  `\c` is a literal `c`
(we only ever generate backslashes before metacharacters), `.*` is the
wildcard star, a plain non-metacharacter is a literal; anything else — in
particular a bare metacharacter, which could be a regex syntax error — is
rejected (`none`). -/
def tokenizePattern : List Char → Option (List RTok)
  | [] => some []
  | [c] =>
      if c = '\\' then none
      else if c = '.' then none
      else if isRegexMeta c then none
      else some [RTok.lit c]
  | c :: d :: rest =>
      if c = '\\' then
        (if isRegexMeta d then (tokenizePattern rest).map (RTok.lit d :: ·) else none)
      else if c = '.' then
        (if d = '*' then (tokenizePattern rest).map (RTok.anyStar :: ·) else none)
      else if isRegexMeta c then none
      else (tokenizePattern (d :: rest)).map (RTok.lit c :: ·)

/-- The intended token reading of the built pattern: the query's characters
as literals, interleaved with `.*`. -/
def litStarToks : List Char → List RTok
  | [] => []
  | [c] => [RTok.lit c]
  | c :: rest => RTok.lit c :: RTok.anyStar :: litStarToks rest

/-- Semantics of a token list: match a prefix of the subject. -/
def toksMatch : List RTok → List Char → Bool
  | [], _ => true
  | RTok.lit _ :: _, [] => false
  | RTok.lit p :: ts, c :: cs => charMatches p c && toksMatch ts cs
  | RTok.anyStar :: ts, n => rgxStar (toksMatch ts) n

/-- Unanchored search with a token list (like `RegExp.prototype.test`). -/
def toksTest (ts : List RTok) : List Char → Bool
  | [] => toksMatch ts []
  | c :: cs => toksMatch ts (c :: cs) || toksTest ts cs

/-- The `Project` interface: `{ id, name, path }`. -/
structure Project where
  id : List Char
  name : List Char
  path : List Char
deriving DecidableEq

/-- `const EXCLUDE_FOLDERS = ["node_modules"]`. -/
def EXCLUDE_FOLDERS : List (List Char) := ["node_modules".toList]

/-- A directory entry as `getProjects` observes it: the name returned by
`readdirSync`, and the outcome of `statSync(join(directory, folder))`:
`none` if the stat threw, `some b` if it returned with `isDirectory() = b`. -/
structure FsEntry where
  name : List Char
  stat : Option Bool
deriving DecidableEq

/-- `folder.startsWith(".")`. -/
def startsWithDot : List Char → Bool
  | '.' :: _ => true
  | _ => false

/-- `path.join(a, b)` for plain segments: empty parts are dropped and the
rest joined with `/` (`path.join("", "")` is `"."`).  Node's `.`/`..`/
duplicate-separator normalisation is not modelled: this definition is
guaranteed to agree with `path.join` only when the nonempty arguments
consist of plain segments (`plainSegment`), and theorems whose truth
depends on the joined string carry hypotheses restricting them to that
domain. -/
def pathJoin (a b : List Char) : List Char :=
  if a = [] then (if b = [] then ['.'] else b)
  else if b = [] then a
  else a ++ '/' :: b

/-- The filter callback of `getProjects` (lines 28–38): keep a folder when
`statSync` returned with `isDirectory()` true (a throwing stat makes the
callback return `false` via the inner catch), the name does not start with
`.`, and the name is not in `EXCLUDE_FOLDERS`. -/
def keepEntry (e : FsEntry) : Bool :=
  match e.stat with
  | none => false
  | some isDir => isDir && !startsWithDot e.name && !EXCLUDE_FOLDERS.contains e.name

/-- `getProjects(directory)`: `listing` is the outcome of
`readdirSync(directory)` (`none` if it threw — the outer catch logs and
returns `[]`).  Each surviving folder (see `keepEntry`) is mapped to a
`Project` with `id = path = join(directory, folder)`. -/
def getProjects (directory : List Char) (listing : Option (List FsEntry)) :
    List Project :=
  match listing with
  | none => []
  | some entries =>
    (entries.filter keepEntry).map fun e =>
      { id := pathJoin directory e.name
        name := e.name
        path := pathJoin directory e.name }

/-- The comparator of `filteredProjects` (lines 85–97), verbatim:
compare `a` and `b` after lowercasing names and the search term. -/
def cmpProjects (searchTerm : List Char) (a b : Project) : Int :=
  if lowerL a.name = lowerL searchTerm then
    (if lowerL a.name = lowerL b.name then 0 else -1)
  else if lowerL b.name = lowerL searchTerm then 1
  else (if containsL (lowerL b.name) (lowerL searchTerm) then (1 : Int) else 0) -
       (if containsL (lowerL a.name) (lowerL searchTerm) then (1 : Int) else 0)

/-- The three-valued key that induces `cmpProjects`: `0` if the lowercased
name equals the lowercased search term, `1` if it merely contains it
contiguously, `2` otherwise. -/
def sortKey (searchTerm : List Char) (p : Project) : Nat :=
  if lowerL p.name = lowerL searchTerm then 0
  else if containsL (lowerL p.name) (lowerL searchTerm) then 1
  else 2

/-- Whether a project's name is case-insensitively equal to the search
term (the comparator's first test). -/
def eqSearchB (searchTerm : List Char) (p : Project) : Bool :=
  lowerL p.name == lowerL searchTerm

/-- Whether a project's lowercased name contains the lowercased search term
contiguously (the comparator's `includes` test). -/
def containsSearchB (searchTerm : List Char) (p : Project) : Bool :=
  containsL (lowerL p.name) (lowerL searchTerm)

/-- `filteredProjects` (lines 80–98): filter the frecency-sorted list with
the subsequence regex, then re-sort with `cmpProjects`.
`Array.prototype.sort` is stable and `cmpProjects` is induced by `sortKey`,
so it is modelled by the stable `List.insertionSort` with
`r a b := cmpProjects searchTerm a b ≤ 0`. -/
def filteredProjects (searchTerm : List Char) (sortedProjects : List Project) :
    List Project :=
  List.insertionSort (fun a b => cmpProjects searchTerm a b ≤ 0)
    (sortedProjects.filter fun item => rgxTest searchTerm item.name)

/-- `query.split("/")` (`String.prototype.split` with a one-character
separator: every occurrence splits, empty pieces are kept). -/
def splitOnSlash : List Char → List (List Char)
  | [] => [[]]
  | c :: rest =>
      if c = '/' then [] :: splitOnSlash rest
      else
        match splitOnSlash rest with
        | [] => [[c]]
        | p :: ps => (c :: p) :: ps

/-- `parts.join("/")`. -/
def joinSlash : List (List Char) → List Char
  | [] => []
  | [p] => p
  | p :: ps => p ++ '/' :: joinSlash ps

/-- `currentPath` (line 59): `parts.length > 1 ? parts.slice(0, -1).join("/") : ""`. -/
def currentPathOf (query : List Char) : List Char :=
  if (splitOnSlash query).length > 1 then joinSlash (splitOnSlash query).dropLast
  else []

/-- The last element of a nonempty list (`parts[parts.length - 1]`;
`splitOnSlash` never returns an empty list). -/
def lastPart : List (List Char) → List Char
  | [] => []
  | [p] => p
  | _ :: ps => lastPart ps

/-- `searchTerm` (line 60): `parts[parts.length - 1]`. -/
def searchTermOf (query : List Char) : List Char :=
  lastPart (splitOnSlash query)

/-- The directory whose contents are listed (line 64):
`join(preferences.projectsDirectory, currentPath)`. -/
def listedDir (root query : List Char) : List Char :=
  pathJoin root (currentPathOf query)

/-- The query set by the "Search in This Project" action (line 113):
`setQuery(join(currentPath, project.name) + "/")`. -/
def searchInProjectQuery (query name : List Char) : List Char :=
  pathJoin (currentPathOf query) name ++ ['/']

/-- Whether a string contains a `/` (used to state the split properties). -/
def containsSlash : List Char → Bool
  | [] => false
  | c :: cs => c == '/' || containsSlash cs

/-- The list the `Command` component renders, as a function of the query and
of the frecency-ranked listing of `listedDir`: only the part of the query
after the last `/` is used as the match term. -/
def displayedProjects (query : List Char) (ranked : List Project) : List Project :=
  filteredProjects (searchTermOf query) ranked

/-! ### Lemmas about the regex model and subsequence matching -/

theorem rgxMatch_nil (n : List Char) : rgxMatch [] n = true := by
  cases n <;> rfl

theorem rgxTest_nil (n : List Char) : rgxTest [] n = true := by
  cases n <;> simp [rgxTest, rgxMatch_nil]

theorem rgxStar_congr {f g : List Char → Bool} (h : ∀ m, f m = g m) :
    ∀ n, rgxStar f n = rgxStar g n
  | [] => by simp [rgxStar, h]
  | c :: cs => by simp [rgxStar, h, rgxStar_congr h cs]

theorem rgxStar_of_true {f : List Char → Bool} (h : ∀ m, f m = true) (n : List Char) :
    rgxStar f n = true := by
  cases n <;> simp [rgxStar, h]

theorem isSubseqCI_cons {q : List Char} {cs : List Char} (c : Char)
    (h : isSubseqCI q cs = true) : isSubseqCI q (c :: cs) = true := by
  cases q with
  | nil => rfl
  | cons p ps => simp only [isSubseqCI]; simp [h]

theorem rgxStar_isSubseqCI {q : List Char} {f : List Char → Bool}
    (hf : ∀ m, f m = true → isSubseqCI q m = true) :
    ∀ n, rgxStar f n = true → isSubseqCI q n = true
  | [] => fun h => hf [] (by simpa [rgxStar] using h)
  | c :: cs => by
      simp only [rgxStar, Bool.or_eq_true, Bool.and_eq_true]
      rintro (h | ⟨-, h⟩)
      · exact hf _ h
      · exact isSubseqCI_cons c (rgxStar_isSubseqCI hf cs h)

theorem rgxMatch_isSubseqCI : ∀ (q n : List Char), rgxMatch q n = true → isSubseqCI q n = true
  | [], n, _ => by cases n <;> rfl
  | _ :: _, [], h => by simp [rgxMatch] at h
  | p :: ps, c :: cs, h => by
      simp only [rgxMatch, Bool.and_eq_true] at h
      obtain ⟨hc, hstar⟩ := h
      have hsub : isSubseqCI ps cs = true :=
        rgxStar_isSubseqCI (fun m hm => rgxMatch_isSubseqCI ps m hm) cs hstar
      simp [isSubseqCI, hc, hsub]

theorem rgxTest_isSubseqCI : ∀ (q n : List Char), rgxTest q n = true → isSubseqCI q n = true
  | q, [], h => rgxMatch_isSubseqCI q [] (by simpa [rgxTest] using h)
  | q, c :: cs, h => by
      simp only [rgxTest, Bool.or_eq_true] at h
      rcases h with h | h
      · exact rgxMatch_isSubseqCI _ _ h
      · exact isSubseqCI_cons c (rgxTest_isSubseqCI q cs h)

theorem rgxStar_eq_rgxTest {q : List Char} :
    ∀ n, (∀ c ∈ n, dotMatches c = true) → rgxStar (rgxMatch q) n = rgxTest q n
  | [] => fun _ => rfl
  | c :: cs => fun h => by
      simp only [rgxStar, rgxTest]
      rw [h c (List.mem_cons_self c cs),
        rgxStar_eq_rgxTest cs (fun d hd => h d (List.mem_cons_of_mem c hd))]
      simp

theorem rgxTest_cons_of_test {q : List Char} (c : Char) {cs : List Char}
    (h : rgxTest q cs = true) : rgxTest q (c :: cs) = true := by
  simp [rgxTest, h]

theorem isSubseqCI_rgxTest :
    ∀ (n : List Char), (∀ c ∈ n, dotMatches c = true) →
      ∀ (q : List Char), isSubseqCI q n = true → rgxTest q n = true
  | [], _, q, h => by
      cases q with
      | nil => simp [rgxTest, rgxMatch]
      | cons p ps => simp [isSubseqCI] at h
  | c :: cs, hdot, q, h => by
      cases q with
      | nil => exact rgxTest_nil _
      | cons p ps =>
          simp only [isSubseqCI, Bool.or_eq_true, Bool.and_eq_true] at h
          rcases h with ⟨hc, hsub⟩ | hsub
          · have hcs : ∀ d ∈ cs, dotMatches d = true :=
              fun d hd => hdot d (List.mem_cons_of_mem c hd)
            have htest : rgxTest ps cs = true := isSubseqCI_rgxTest cs hcs ps hsub
            have hstar : rgxStar (rgxMatch ps) cs = true := by
              rw [rgxStar_eq_rgxTest cs hcs]; exact htest
            simp [rgxTest, rgxMatch, hc, hstar]
          · have hcs : ∀ d ∈ cs, dotMatches d = true :=
              fun d hd => hdot d (List.mem_cons_of_mem c hd)
            exact rgxTest_cons_of_test c (isSubseqCI_rgxTest cs hcs (p :: ps) hsub)

/-- On subjects without line terminators, the built regex tests exactly the
case-insensitive subsequence property. -/
theorem rgxTest_eq_isSubseqCI {q n : List Char} (h : ∀ c ∈ n, dotMatches c = true) :
    rgxTest q n = isSubseqCI q n := by
  cases ht : rgxTest q n with
  | true => exact (rgxTest_isSubseqCI q n ht).symm
  | false =>
      cases hs : isSubseqCI q n with
      | true => rw [isSubseqCI_rgxTest n h q hs] at ht; cases ht
      | false => rfl

/-! ### The matcher and the comparator only depend on the lowercased query -/

theorem rgxMatch_congr_lower :
    ∀ (q q' : List Char), lowerL q = lowerL q' → ∀ n, rgxMatch q n = rgxMatch q' n
  | [], q', h, n => by
      have : q' = [] := by
        cases q' with
        | nil => rfl
        | cons p ps => simp [lowerL] at h
      subst this; rfl
  | p :: ps, q', h, n => by
      cases q' with
      | nil => simp [lowerL] at h
      | cons p' ps' =>
          simp only [lowerL, List.map_cons, List.cons.injEq] at h
          obtain ⟨hp, hps⟩ := h
          cases n with
          | nil => rfl
          | cons c cs =>
              simp only [rgxMatch]
              rw [show charMatches p c = charMatches p' c by simp [charMatches, hp],
                rgxStar_congr (fun m => rgxMatch_congr_lower ps ps' hps m) cs]

theorem rgxTest_congr_lower {q q' : List Char} (h : lowerL q = lowerL q') :
    ∀ n, rgxTest q n = rgxTest q' n
  | [] => by simp [rgxTest, rgxMatch_congr_lower q q' h]
  | c :: cs => by
      simp [rgxTest, rgxMatch_congr_lower q q' h, rgxTest_congr_lower h cs]

theorem cmpProjects_congr_lower {q q' : List Char} (h : lowerL q = lowerL q') :
    cmpProjects q = cmpProjects q' := by
  funext a b
  unfold cmpProjects
  rw [h]

/-! ### The comparator is induced by the three-valued key -/

/-- Sign comparison of two keys, the value pattern `cmpProjects` follows. -/
def cmpKey (x y : Nat) : Int :=
  if x < y then -1 else if y < x then 1 else 0

theorem startsWithL_refl : ∀ s : List Char, startsWithL s s = true
  | [] => rfl
  | c :: cs => by simp [startsWithL, startsWithL_refl cs]

theorem containsL_refl (s : List Char) : containsL s s = true := by
  cases s with
  | nil => rfl
  | cons c cs => simp [containsL, startsWithL_refl]

theorem cmpProjects_eq_cmpKey (q : List Char) (a b : Project) :
    cmpProjects q a b = cmpKey (sortKey q a) (sortKey q b) := by
  unfold cmpProjects sortKey cmpKey
  by_cases ha : lowerL a.name = lowerL q
  · by_cases hab : lowerL a.name = lowerL b.name
    · have hb : lowerL b.name = lowerL q := hab ▸ ha
      simp [ha, hab, hb]
    · have hb : ¬ lowerL b.name = lowerL q := fun hb => hab (ha.trans hb.symm)
      have hb' : ¬ lowerL q = lowerL b.name := fun hb2 => hb hb2.symm
      by_cases hcb : containsL (lowerL b.name) (lowerL q) = true <;>
        simp [ha, hab, hb, hb', hcb]
  · by_cases hb : lowerL b.name = lowerL q
    · by_cases hca : containsL (lowerL a.name) (lowerL q) = true <;>
        simp [ha, hb, hca]
    · by_cases hca : containsL (lowerL a.name) (lowerL q) = true <;>
        by_cases hcb : containsL (lowerL b.name) (lowerL q) = true <;>
          simp [ha, hb, hca, hcb]

theorem cmpKey_le_zero_iff {x y : Nat} : cmpKey x y ≤ 0 ↔ x ≤ y := by
  unfold cmpKey
  split_ifs with h1 h2 <;> simp <;> omega

theorem cmpKey_eq_zero_iff {x y : Nat} : cmpKey x y = 0 ↔ x = y := by
  unfold cmpKey
  split_ifs with h1 h2 <;> simp <;> omega

theorem cmpProjects_le_iff {q : List Char} {a b : Project} :
    cmpProjects q a b ≤ 0 ↔ sortKey q a ≤ sortKey q b := by
  rw [cmpProjects_eq_cmpKey, cmpKey_le_zero_iff]

theorem cmpProjects_eq_zero_iff {q : List Char} {a b : Project} :
    cmpProjects q a b = 0 ↔ sortKey q a = sortKey q b := by
  rw [cmpProjects_eq_cmpKey, cmpKey_eq_zero_iff]

theorem eqSearchB_iff_sortKey {q : List Char} {p : Project} :
    eqSearchB q p = true ↔ sortKey q p = 0 := by
  unfold eqSearchB sortKey
  by_cases h : lowerL p.name = lowerL q
  · simp [h]
  · by_cases hc : containsL (lowerL p.name) (lowerL q) = true <;> simp [h, hc]

theorem sortKey_eq_one_iff {q : List Char} {p : Project} :
    sortKey q p = 1 ↔ (eqSearchB q p = false ∧ containsSearchB q p = true) := by
  unfold eqSearchB sortKey containsSearchB
  by_cases h : lowerL p.name = lowerL q
  · simp [h]
  · by_cases hc : containsL (lowerL p.name) (lowerL q) = true <;> simp [h, hc]

theorem sortKey_eq_two_iff {q : List Char} {p : Project} :
    sortKey q p = 2 ↔ (eqSearchB q p = false ∧ containsSearchB q p = false) := by
  unfold eqSearchB sortKey containsSearchB
  by_cases h : lowerL p.name = lowerL q
  · simp [h]
  · by_cases hc : containsL (lowerL p.name) (lowerL q) = true <;> simp [h, hc]

/-! ### The sort: membership, sortedness, stability -/

theorem mem_filteredProjects {q : List Char} {sp : List Project} {p : Project} :
    p ∈ filteredProjects q sp ↔ p ∈ sp ∧ rgxTest q p.name = true := by
  unfold filteredProjects
  rw [List.mem_insertionSort, List.mem_filter]

theorem sorted_key_filteredProjects (q : List Char) (sp : List Project) :
    (filteredProjects q sp).Pairwise (fun a b => sortKey q a ≤ sortKey q b) := by
  haveI htot : IsTotal Project (fun a b => cmpProjects q a b ≤ 0) := by
    constructor
    intro a b
    rw [cmpProjects_le_iff, cmpProjects_le_iff]
    omega
  haveI htr : IsTrans Project (fun a b => cmpProjects q a b ≤ 0) := by
    constructor
    intro a b c
    rw [cmpProjects_le_iff, cmpProjects_le_iff, cmpProjects_le_iff]
    omega
  have h := List.sorted_insertionSort (fun a b => cmpProjects q a b ≤ 0)
    (sp.filter fun item => rgxTest q item.name)
  exact List.Pairwise.imp (fun hab => cmpProjects_le_iff.mp hab) h

theorem filter_orderedInsert_of_neg {α : Type} (r : α → α → Prop) [DecidableRel r]
    (P : α → Bool) (a : α) (ha : P a = false) :
    ∀ l : List α, (List.orderedInsert r a l).filter P = l.filter P
  | [] => by simp [List.orderedInsert, ha]
  | b :: l => by
      by_cases hr : r a b
      · simp [List.orderedInsert, hr, List.filter_cons, ha]
      · simp only [List.orderedInsert, if_neg hr, List.filter_cons,
          filter_orderedInsert_of_neg r P a ha l]

theorem filter_orderedInsert_of_pos {α : Type} (r : α → α → Prop) [DecidableRel r]
    (P : α → Bool) (a : α) (ha : P a = true) :
    ∀ l : List α, (∀ b ∈ l, P b = true → r a b) →
      (List.orderedInsert r a l).filter P = a :: l.filter P
  | [], _ => by simp [List.orderedInsert, ha]
  | b :: l, h => by
      by_cases hr : r a b
      · simp [List.orderedInsert, hr, List.filter_cons, ha]
      · have hPb : P b = false := by
          cases hb : P b with
          | true => exact absurd (h b (List.mem_cons_self b l) hb) hr
          | false => rfl
        simp only [List.orderedInsert, if_neg hr, List.filter_cons, hPb,
          Bool.false_eq_true, if_false]
        exact filter_orderedInsert_of_pos r P a ha l
          (fun c hc hPc => h c (List.mem_cons_of_mem b hc) hPc)

theorem filter_insertionSort {α : Type} (r : α → α → Prop) [DecidableRel r]
    (P : α → Bool) (hP : ∀ a b, P a = true → P b = true → r a b) :
    ∀ l : List α, (List.insertionSort r l).filter P = l.filter P
  | [] => rfl
  | a :: l => by
      cases ha : P a with
      | true =>
          have h1 := filter_orderedInsert_of_pos r P a ha (List.insertionSort r l)
            (fun b _ hb => hP a b ha hb)
          simp only [List.insertionSort, h1, filter_insertionSort r P hP l,
            List.filter_cons, ha, if_true]
      | false =>
          have h1 := filter_orderedInsert_of_neg r P a ha (List.insertionSort r l)
          simp only [List.insertionSort, h1, filter_insertionSort r P hP l,
            List.filter_cons, ha, Bool.false_eq_true, if_false]

/-! ### The built pattern string parses, and parses to literal characters -/

theorem escapeRegex_single (c : Char) :
    escapeRegex [c] = if isRegexMeta c then ['\\', c] else [c] := by
  simp [escapeRegex]

theorem tokenizePattern_escChar (c : Char) (s : List Char) :
    tokenizePattern (escapeRegex [c] ++ s) = (tokenizePattern s).map (RTok.lit c :: ·) := by
  by_cases hm : isRegexMeta c = true
  · rw [escapeRegex_single, if_pos hm]
    simp [tokenizePattern, hm]
  · have h1 : ¬ c = '\\' := by
      intro h; subst h; simp [isRegexMeta] at hm
    have h2 : ¬ c = '.' := by
      intro h; subst h; simp [isRegexMeta] at hm
    rw [escapeRegex_single, if_neg hm]
    cases s <;> simp [tokenizePattern, h1, h2, hm]

theorem tokenizePattern_buildPattern :
    ∀ q, tokenizePattern (buildPattern q) = some (litStarToks q)
  | [] => rfl
  | [c] => by
      have h : buildPattern [c] = escapeRegex [c] ++ [] := by simp [buildPattern]
      rw [h, tokenizePattern_escChar]
      rfl
  | c :: d :: rest => by
      have h : buildPattern (c :: d :: rest) =
          escapeRegex [c] ++ '.' :: '*' :: buildPattern (d :: rest) := by
        simp [buildPattern]
      rw [h, tokenizePattern_escChar]
      have h2 : tokenizePattern ('.' :: '*' :: buildPattern (d :: rest)) =
          (tokenizePattern (buildPattern (d :: rest))).map (RTok.anyStar :: ·) := by
        simp [tokenizePattern]
      rw [h2, tokenizePattern_buildPattern (d :: rest)]
      rfl

theorem toksMatch_litStarToks : ∀ (q n : List Char), toksMatch (litStarToks q) n = rgxMatch q n
  | [], n => by cases n <;> rfl
  | [c], n => by
      cases n with
      | nil => rfl
      | cons c' cs =>
          show (charMatches c c' && toksMatch [] cs)
              = (charMatches c c' && rgxStar (rgxMatch []) cs)
          rw [rgxStar_of_true (fun m => rgxMatch_nil m) cs]
          rfl
  | c :: d :: rest, n => by
      cases n with
      | nil => rfl
      | cons c' cs =>
          show (charMatches c c' && rgxStar (toksMatch (litStarToks (d :: rest))) cs)
              = (charMatches c c' && rgxStar (rgxMatch (d :: rest)) cs)
          rw [rgxStar_congr (fun m => toksMatch_litStarToks (d :: rest) m) cs]

theorem toksTest_litStarToks (q : List Char) :
    ∀ n, toksTest (litStarToks q) n = rgxTest q n
  | [] => toksMatch_litStarToks q []
  | c :: cs => by
      show (toksMatch (litStarToks q) (c :: cs) || toksTest (litStarToks q) cs)
          = (rgxMatch q (c :: cs) || rgxTest q cs)
      rw [toksMatch_litStarToks q (c :: cs), toksTest_litStarToks q cs]

/-! ### Query splitting -/

theorem splitOnSlash_ne_nil : ∀ s, splitOnSlash s ≠ []
  | [] => by simp [splitOnSlash]
  | c :: rest => by
      by_cases h : c = '/'
      · simp [splitOnSlash, h]
      · simp only [splitOnSlash, if_neg h]
        cases hs : splitOnSlash rest <;> simp

theorem joinSlash_splitOnSlash : ∀ s, joinSlash (splitOnSlash s) = s
  | [] => rfl
  | c :: rest => by
      have ih := joinSlash_splitOnSlash rest
      by_cases h : c = '/'
      · subst h
        simp only [splitOnSlash, if_pos rfl]
        cases hs : splitOnSlash rest with
        | nil => exact absurd hs (splitOnSlash_ne_nil rest)
        | cons p ps =>
            rw [hs] at ih
            simp only [joinSlash, List.nil_append]
            rw [ih]
      · simp only [splitOnSlash, if_neg h]
        cases hs : splitOnSlash rest with
        | nil => exact absurd hs (splitOnSlash_ne_nil rest)
        | cons p ps =>
            rw [hs] at ih
            cases ps with
            | nil =>
                simp only [joinSlash] at ih ⊢
                rw [ih]
            | cons p2 ps2 =>
                simp only [joinSlash, List.cons_append] at ih ⊢
                rw [ih]

theorem lastPart_mem : ∀ l : List (List Char), l ≠ [] → lastPart l ∈ l
  | [], h => absurd rfl h
  | [p], _ => by simp [lastPart]
  | p :: p2 :: ps, _ => by
      simp only [lastPart]
      exact List.mem_cons_of_mem p (lastPart_mem (p2 :: ps) (by simp))

theorem dropLast_append_lastPart :
    ∀ l : List (List Char), l ≠ [] → l.dropLast ++ [lastPart l] = l
  | [], h => absurd rfl h
  | [p], _ => by simp [lastPart]
  | p :: p2 :: ps, _ => by
      simp only [List.dropLast_cons₂, lastPart, List.cons_append]
      rw [dropLast_append_lastPart (p2 :: ps) (by simp)]

theorem joinSlash_cons (p : List Char) (l : List (List Char)) (h : l ≠ []) :
    joinSlash (p :: l) = p ++ '/' :: joinSlash l := by
  cases l with
  | nil => exact absurd rfl h
  | cons p2 ps => simp [joinSlash]

theorem joinSlash_append_singleton :
    ∀ (ps : List (List Char)) (x : List Char), ps ≠ [] →
      joinSlash (ps ++ [x]) = joinSlash ps ++ '/' :: x
  | [], _, h => absurd rfl h
  | [p], x, _ => by simp [joinSlash]
  | p :: p2 :: ps, x, _ => by
      rw [show (p :: p2 :: ps) ++ [x] = p :: ((p2 :: ps) ++ [x]) from rfl]
      rw [joinSlash_cons p ((p2 :: ps) ++ [x]) (by simp)]
      rw [joinSlash_append_singleton (p2 :: ps) x (by simp)]
      rw [joinSlash_cons p (p2 :: ps) (by simp)]
      simp

theorem splitOnSlash_no_slash : ∀ s, ∀ p ∈ splitOnSlash s, containsSlash p = false
  | [], p, hp => by
      simp [splitOnSlash] at hp
      subst hp; rfl
  | c :: rest, p, hp => by
      by_cases h : c = '/'
      · subst h
        simp only [splitOnSlash, if_pos rfl] at hp
        rcases List.mem_cons.mp hp with rfl | hp2
        · rfl
        · exact splitOnSlash_no_slash rest p hp2
      · simp only [splitOnSlash, if_neg h] at hp
        cases hs : splitOnSlash rest with
        | nil => exact absurd hs (splitOnSlash_ne_nil rest)
        | cons hd tl =>
            rw [hs] at hp
            rcases List.mem_cons.mp hp with rfl | hp2
            · have hhd : containsSlash hd = false :=
                splitOnSlash_no_slash rest hd (by rw [hs]; exact List.mem_cons_self hd tl)
              simp [containsSlash, h, hhd]
            · exact splitOnSlash_no_slash rest p (by rw [hs]; exact List.mem_cons_of_mem hd hp2)

theorem searchTermOf_no_slash (query : List Char) :
    containsSlash (searchTermOf query) = false :=
  splitOnSlash_no_slash query _ (lastPart_mem _ (splitOnSlash_ne_nil query))

theorem splitOnSlash_length_gt_one_iff :
    ∀ s : List Char, ((splitOnSlash s).length > 1 ↔ containsSlash s = true)
  | [] => by simp [splitOnSlash, containsSlash]
  | c :: rest => by
      by_cases h : c = '/'
      · subst h
        have hpos : 0 < (splitOnSlash rest).length :=
          List.length_pos.mpr (splitOnSlash_ne_nil rest)
        rw [show splitOnSlash ('/' :: rest) = [] :: splitOnSlash rest from by
          simp [splitOnSlash]]
        simp only [List.length_cons, containsSlash]
        constructor
        · intro _; simp
        · intro _; omega
      · simp only [splitOnSlash, if_neg h, containsSlash]
        cases hs : splitOnSlash rest with
        | nil => exact absurd hs (splitOnSlash_ne_nil rest)
        | cons hd tl =>
            have ih := splitOnSlash_length_gt_one_iff rest
            rw [hs] at ih
            have hc : (c == '/') = false := by
              cases hcc : c == '/' with
              | true => exact absurd (by simpa using hcc) h
              | false => rfl
            simpa [hc] using ih

theorem splitOnSlash_eq_singleton {s : List Char}
    (h : ¬ (splitOnSlash s).length > 1) : splitOnSlash s = [s] := by
  cases hs : splitOnSlash s with
  | nil => exact absurd hs (splitOnSlash_ne_nil s)
  | cons p ps =>
      cases ps with
      | nil =>
          have hj := joinSlash_splitOnSlash s
          rw [hs] at hj
          simp only [joinSlash] at hj
          rw [hj]
      | cons p2 ps2 =>
          rw [hs] at h
          simp at h

theorem query_decomposition {query : List Char}
    (h : (splitOnSlash query).length > 1) :
    query = currentPathOf query ++ '/' :: searchTermOf query := by
  have hne : splitOnSlash query ≠ [] := splitOnSlash_ne_nil query
  have hd : (splitOnSlash query).dropLast ≠ [] := by
    have : (splitOnSlash query).dropLast.length = (splitOnSlash query).length - 1 :=
      List.length_dropLast _
    intro hnil
    rw [hnil] at this
    simp at this
    omega
  calc query = joinSlash (splitOnSlash query) := (joinSlash_splitOnSlash query).symm
    _ = joinSlash ((splitOnSlash query).dropLast ++ [lastPart (splitOnSlash query)]) := by
        rw [dropLast_append_lastPart _ hne]
    _ = joinSlash (splitOnSlash query).dropLast ++ '/' :: lastPart (splitOnSlash query) :=
        joinSlash_append_singleton _ _ hd
    _ = currentPathOf query ++ '/' :: searchTermOf query := by
        unfold currentPathOf searchTermOf
        rw [if_pos h]

/-! ### The empty search term -/

theorem containsL_nil_needle : ∀ hay : List Char, containsL hay [] = true
  | [] => rfl
  | c :: cs => by simp [containsL, startsWithL]

theorem sortKey_empty_search {p : Project} (h : p.name ≠ []) : sortKey [] p = 1 := by
  unfold sortKey
  have hne : ¬ lowerL p.name = lowerL [] := by
    simp only [lowerL, List.map_nil]
    intro hmap
    exact h (List.map_eq_nil_iff.mp hmap)
  rw [if_neg hne, if_pos]
  simp only [lowerL, List.map_nil]
  exact containsL_nil_needle _

theorem keepEntry_iff {e : FsEntry} :
    keepEntry e = true ↔
      (e.stat = some true ∧ startsWithDot e.name = false ∧
        EXCLUDE_FOLDERS.contains e.name = false) := by
  cases hstat : e.stat with
  | none => simp [keepEntry, hstat]
  | some isDir => cases isDir <;> simp [keepEntry, hstat]

/-- A path segment on which Node's `path.join` performs no rewriting when
joined with `/`: nonempty, not `"."`, not `".."`, and containing no
separator.  On paths made of plain segments, `path.join` is plain
concatenation with `/`, i.e. it agrees with `pathJoin`. -/
def plainSegment (s : List Char) : Bool :=
  !s.isEmpty && !(s == ['.']) && !(s == ['.', '.']) && !containsSlash s

theorem plainSegment_ne_nil {s : List Char} (h : plainSegment s = true) : s ≠ [] := by
  intro hs
  subst hs
  simp [plainSegment] at h

theorem joinSlash_cons_ne_nil (p : List Char) (ps : List (List Char)) (hp : p ≠ []) :
    joinSlash (p :: ps) ≠ [] := by
  cases ps with
  | nil => simpa [joinSlash] using hp
  | cons p2 ps2 =>
      rw [joinSlash_cons p (p2 :: ps2) (by simp)]
      simp

/-! ## The claims -/

/-- C1 (counterexample): the claim states that a project is included in the
filtered results if and only if the query's characters appear in its name in
order, "regardless of what characters lie between the matches".  This fails
as stated: for the name `"a\nb"` and the search term `"ab"`, the characters
appear in order (a case-insensitive subsequence), but the project is
filtered out, because `.` in the generated JavaScript pattern `a.*b` does
not match the newline lying between the two matches. -/
theorem C1_counterexample :
    isSubseqCI "ab".toList "a\nb".toList = true ∧
    filteredProjects "ab".toList
      [{ id := "p".toList, name := "a\nb".toList, path := "p".toList }] = [] := by
  constructor
  · decide
  · decide

/-- C1, amended: for every project list, project and search term, if the
project's name contains no line-terminator characters (`\n`, `\r`, U+2028,
U+2029 — the characters `.` does not match), then the project is included in
the filtered results if and only if it is in the input list and the search
term's characters appear in its name in order (case-insensitively),
regardless of which (non-line-terminator) characters lie between the
matches. -/
theorem C1_included_iff_subsequence (q : List Char) (sp : List Project) (p : Project)
    (hname : ∀ c ∈ p.name, dotMatches c = true) :
    p ∈ filteredProjects q sp ↔ (p ∈ sp ∧ isSubseqCI q p.name = true) := by
  rw [mem_filteredProjects]
  constructor
  · rintro ⟨hmem, htest⟩
    exact ⟨hmem, rgxTest_isSubseqCI q p.name htest⟩
  · rintro ⟨hmem, hsub⟩
    exact ⟨hmem, isSubseqCI_rgxTest p.name hname q hsub⟩

/-- C1 witness: `"axb"` is a subsequence match for `"ab"` and is indeed
included. -/
theorem C1_witness :
    ({ id := "w".toList, name := "axb".toList, path := "w".toList } : Project) ∈
      filteredProjects "ab".toList
        [{ id := "w".toList, name := "axb".toList, path := "w".toList }] :=
  (C1_included_iff_subsequence "ab".toList
      [{ id := "w".toList, name := "axb".toList, path := "w".toList }]
      { id := "w".toList, name := "axb".toList, path := "w".toList }
      (by decide)).mpr (by decide)

/-- C2 (counterexample): the claim quantifies over every ranked project
list, but a project whose name is the empty string is case-insensitively
equal to the empty search term, so the comparator returns `-1` against any
other project and moves it to the front: the list is not returned
unchanged. -/
theorem C2_counterexample :
    filteredProjects []
      [{ id := "a".toList, name := "a".toList, path := "a".toList },
       { id := "e".toList, name := [], path := "e".toList }] ≠
    [{ id := "a".toList, name := "a".toList, path := "a".toList },
     { id := "e".toList, name := [], path := "e".toList }] := by
  decide

/-- C2, amended: for every frecency-ranked project list whose names are all
nonempty (directory entries always have nonempty names, so the restriction
is vacuous for lists produced by `getProjects`), filtering and re-sorting
with the empty query returns the entire list unchanged, in the same order:
the empty pattern matches every name and the comparator returns `0` for
every pair, so the stable sort preserves the input order. -/
theorem C2_empty_query_identity (sp : List Project) (h : ∀ p ∈ sp, p.name ≠ []) :
    filteredProjects [] sp = sp := by
  unfold filteredProjects
  rw [List.filter_eq_self.mpr (fun p _ => rgxTest_nil p.name)]
  apply List.Sorted.insertionSort_eq
  apply List.pairwise_of_forall_mem_list
  intro a ha b hb
  rw [cmpProjects_le_iff]
  exact le_of_eq ((sortKey_empty_search (h a ha)).trans
    (sortKey_empty_search (h b hb)).symm)

/-- C2 witness: a concrete two-element ranked list is returned unchanged by
the empty query. -/
theorem C2_witness :
    filteredProjects []
      [{ id := "b".toList, name := "b".toList, path := "b".toList },
       { id := "a".toList, name := "a".toList, path := "a".toList }] =
    [{ id := "b".toList, name := "b".toList, path := "b".toList },
     { id := "a".toList, name := "a".toList, path := "a".toList }] :=
  C2_empty_query_identity _ (by decide)

/-- C3: in the filtered output, every entry whose name is case-insensitively
equal to the search term is placed before every entry whose name is not
(first conjunct: whenever an exact match appears after some entry, that
earlier entry is an exact match too); two entries both equal to the term
compare as equal and the stable sort preserves their relative order (second
conjunct: the subsequence of exact matches is exactly the subsequence of
exact matches of the frecency-ranked filtered input, in order); and in
particular, for projects `["abcd", "abc"]` and query `"abc"`, `"abc"` is
placed before `"abcd"` (third conjunct). -/
theorem C3_exact_match_first (q : List Char) (sp : List Project) :
    (filteredProjects q sp).Pairwise
        (fun a b => eqSearchB q b = true → eqSearchB q a = true) ∧
    (filteredProjects q sp).filter (eqSearchB q)
        = (sp.filter fun p => rgxTest q p.name).filter (eqSearchB q) ∧
    filteredProjects "abc".toList
        [{ id := "abcd".toList, name := "abcd".toList, path := "abcd".toList },
         { id := "abc".toList, name := "abc".toList, path := "abc".toList }]
      = [{ id := "abc".toList, name := "abc".toList, path := "abc".toList },
         { id := "abcd".toList, name := "abcd".toList, path := "abcd".toList }] := by
  refine ⟨?_, ?_, by decide⟩
  · refine (sorted_key_filteredProjects q sp).imp ?_
    intro a b hab hb
    rw [eqSearchB_iff_sortKey] at hb ⊢
    omega
  · unfold filteredProjects
    refine filter_insertionSort _ (eqSearchB q) ?_ _
    intro a b ha hb
    rw [cmpProjects_le_iff]
    exact le_of_eq ((eqSearchB_iff_sortKey.mp ha).trans
      (eqSearchB_iff_sortKey.mp hb).symm)

/-- C3 witness: instantiation at a concrete query and list. -/
theorem C3_witness :
    (filteredProjects "ab".toList
        [{ id := "x".toList, name := "AB".toList, path := "x".toList },
         { id := "y".toList, name := "axb".toList, path := "y".toList }]).Pairwise
      (fun a b => eqSearchB "ab".toList b = true → eqSearchB "ab".toList a = true) :=
  (C3_exact_match_first "ab".toList
    [{ id := "x".toList, name := "AB".toList, path := "x".toList },
     { id := "y".toList, name := "axb".toList, path := "y".toList }]).1

/-- C4: among filtered entries whose names are not case-insensitively equal
to the search term, an entry whose lowercase name contains the lowercase
term contiguously is placed before one whose name does not (first
conjunct); when both or neither contain it, the comparator yields `0`
(second conjunct) and the prior frecency order is kept (third and fourth
conjuncts: each of the two tie classes appears in the output as the
subsequence it formed in the filtered ranked input). -/
theorem C4_contains_priority (q : List Char) (sp : List Project) :
    (filteredProjects q sp).Pairwise
        (fun a b => eqSearchB q a = false → eqSearchB q b = false →
          containsSearchB q b = true → containsSearchB q a = true) ∧
    (∀ a b : Project, eqSearchB q a = false → eqSearchB q b = false →
        containsSearchB q a = containsSearchB q b → cmpProjects q a b = 0) ∧
    (filteredProjects q sp).filter (fun p => !eqSearchB q p && containsSearchB q p)
        = (sp.filter fun p => rgxTest q p.name).filter
            (fun p => !eqSearchB q p && containsSearchB q p) ∧
    (filteredProjects q sp).filter (fun p => !eqSearchB q p && !containsSearchB q p)
        = (sp.filter fun p => rgxTest q p.name).filter
            (fun p => !eqSearchB q p && !containsSearchB q p) := by
  refine ⟨?_, ?_, ?_, ?_⟩
  · refine (sorted_key_filteredProjects q sp).imp ?_
    intro a b hab ha hb hcb
    have hkb : sortKey q b = 1 := sortKey_eq_one_iff.mpr ⟨hb, hcb⟩
    have hka : sortKey q a ≠ 0 := by
      intro h0
      rw [eqSearchB_iff_sortKey.mpr h0] at ha
      cases ha
    exact (sortKey_eq_one_iff.mp (by omega)).2
  · intro a b ha hb hc
    rw [cmpProjects_eq_zero_iff]
    cases hca : containsSearchB q a with
    | true =>
        have hcb : containsSearchB q b = true := by rw [← hc, hca]
        rw [sortKey_eq_one_iff.mpr ⟨ha, hca⟩, sortKey_eq_one_iff.mpr ⟨hb, hcb⟩]
    | false =>
        have hcb : containsSearchB q b = false := by rw [← hc, hca]
        rw [sortKey_eq_two_iff.mpr ⟨ha, hca⟩, sortKey_eq_two_iff.mpr ⟨hb, hcb⟩]
  · unfold filteredProjects
    refine filter_insertionSort _ _ ?_ _
    intro a b ha hb
    simp only [Bool.and_eq_true, Bool.not_eq_true'] at ha hb
    rw [cmpProjects_le_iff]
    exact le_of_eq ((sortKey_eq_one_iff.mpr ⟨ha.1, ha.2⟩).trans
      (sortKey_eq_one_iff.mpr ⟨hb.1, hb.2⟩).symm)
  · unfold filteredProjects
    refine filter_insertionSort _ _ ?_ _
    intro a b ha hb
    simp only [Bool.and_eq_true, Bool.not_eq_true'] at ha hb
    rw [cmpProjects_le_iff]
    exact le_of_eq ((sortKey_eq_two_iff.mpr ⟨ha.1, ha.2⟩).trans
      (sortKey_eq_two_iff.mpr ⟨hb.1, hb.2⟩).symm)

/-- C4 witness: two concrete non-exact entries that both contain the term
compare as `0`. -/
theorem C4_witness :
    cmpProjects "abc".toList
      { id := "x".toList, name := "xabcy".toList, path := "x".toList }
      { id := "y".toList, name := "zabcz".toList, path := "y".toList } = 0 :=
  (C4_contains_priority "abc".toList []).2.1
    { id := "x".toList, name := "xabcy".toList, path := "x".toList }
    { id := "y".toList, name := "zabcz".toList, path := "y".toList }
    (by decide) (by decide) (by decide)

/-- C5: filtering with a search term and with any case-variant of it (same
characters up to `toLowerCase`) produces identical results — not only the
same result set but the same output list. -/
theorem C5_case_insensitive (q q' : List Char) (sp : List Project)
    (h : lowerL q = lowerL q') :
    filteredProjects q sp = filteredProjects q' sp := by
  unfold filteredProjects
  have hf : (fun item : Project => rgxTest q item.name)
      = (fun item : Project => rgxTest q' item.name) := by
    funext item
    exact rgxTest_congr_lower h item.name
  rw [hf, cmpProjects_congr_lower h]

/-- C5 witness: `"ABC"` and `"abc"` filter a concrete list identically. -/
theorem C5_witness :
    filteredProjects "ABC".toList
        [{ id := "x".toList, name := "xAbCy".toList, path := "x".toList },
         { id := "y".toList, name := "q".toList, path := "y".toList }]
      = filteredProjects "abc".toList
        [{ id := "x".toList, name := "xAbCy".toList, path := "x".toList },
         { id := "y".toList, name := "q".toList, path := "y".toList }] :=
  C5_case_insensitive "ABC".toList "abc".toList _ (by decide)

/-- C6: the directory listing includes an entry only if the listing call
succeeded and the entry stats as a directory, its name does not start with
`.`, and its name is not in the exclusion set (`EXCLUDE_FOLDERS`, containing
`node_modules`); consequently a folder named `.git` or `node_modules`
directly under the listed directory never appears. -/
theorem C6_directory_filter (dir : List Char) (listing : Option (List FsEntry))
    (p : Project) (hp : p ∈ getProjects dir listing) :
    (∃ entries, listing = some entries ∧ ∃ e ∈ entries,
        p.name = e.name ∧ e.stat = some true ∧ startsWithDot e.name = false ∧
        EXCLUDE_FOLDERS.contains e.name = false) ∧
    p.name ≠ ".git".toList ∧ p.name ≠ "node_modules".toList := by
  cases listing with
  | none => simp [getProjects] at hp
  | some entries =>
      simp only [getProjects, List.mem_map] at hp
      obtain ⟨e, he, hpe⟩ := hp
      rw [List.mem_filter] at he
      obtain ⟨hmem, hkeep⟩ := he
      obtain ⟨hstat, hdot, hexc⟩ := keepEntry_iff.mp hkeep
      have hname : p.name = e.name := by rw [← hpe]
      refine ⟨⟨entries, rfl, e, hmem, hname, hstat, hdot, hexc⟩, ?_, ?_⟩
      · intro hgit
        have he' : e.name = ".git".toList := hname.symm.trans hgit
        rw [he'] at hdot
        have : startsWithDot ".git".toList = true := by decide
        rw [this] at hdot
        cases hdot
      · intro hnm
        have he' : e.name = "node_modules".toList := hname.symm.trans hnm
        rw [he'] at hexc
        have : EXCLUDE_FOLDERS.contains "node_modules".toList = true := by decide
        rw [this] at hexc
        cases hexc

/-- C6 witness: a concrete listing with a surviving entry. -/
theorem C6_witness :
    ({ id := "r/proj".toList, name := "proj".toList, path := "r/proj".toList }
        : Project).name ≠ ".git".toList :=
  (C6_directory_filter "r".toList
      (some [{ name := "proj".toList, stat := some true }])
      { id := "r/proj".toList, name := "proj".toList, path := "r/proj".toList }
      (by decide)).2.1

/-- C7: `getProjects` recovers from filesystem failures instead of
propagating them: if reading the directory fails (`listing = none`, the
outer catch) it returns the empty project list, and if the metadata stat of
one entry fails (`stat = none`, the inner catch) exactly that entry is
dropped while the rest of the listing is unaffected. -/
theorem C7_error_recovery (dir : List Char) :
    getProjects dir none = [] ∧
    ∀ (es1 es2 : List FsEntry) (e : FsEntry), e.stat = none →
      getProjects dir (some (es1 ++ e :: es2)) = getProjects dir (some (es1 ++ es2)) := by
  refine ⟨rfl, ?_⟩
  intro es1 es2 e he
  simp only [getProjects]
  rw [List.filter_append, List.filter_append, List.filter_cons]
  have hk : keepEntry e = false := by simp [keepEntry, he]
  rw [hk]
  simp

/-- C7 witness: a listing with one unstattable entry equals the listing
without it. -/
theorem C7_witness :
    getProjects "r".toList
        (some [{ name := "a".toList, stat := some true },
               { name := "b".toList, stat := none }])
      = getProjects "r".toList (some [{ name := "a".toList, stat := some true }]) :=
  (C7_error_recovery "r".toList).2 [{ name := "a".toList, stat := some true }] []
    { name := "b".toList, stat := none } rfl

/-- C8: the query is split on `/`: the part after the last `/` (the search
term) contains no `/` and is the fuzzy match term used against the listed
directory (`displayedProjects`); if the query contains a `/`, it decomposes
as the current path, a `/`, and the search term, and the listed directory
is the root joined with that current path; a query with no `/` has an empty
current path, is itself the search term, and lists the root itself. -/
theorem C8_query_split (root query : List Char) :
    containsSlash (searchTermOf query) = false ∧
    displayedProjects query = filteredProjects (searchTermOf query) ∧
    listedDir root query = pathJoin root (currentPathOf query) ∧
    (containsSlash query = true →
        query = currentPathOf query ++ '/' :: searchTermOf query) ∧
    (containsSlash query = false →
        currentPathOf query = [] ∧ searchTermOf query = query ∧
          (root ≠ [] → listedDir root query = root)) := by
  refine ⟨searchTermOf_no_slash query, rfl, rfl, ?_, ?_⟩
  · intro h
    exact query_decomposition ((splitOnSlash_length_gt_one_iff query).mpr h)
  · intro h
    have hlen : ¬ (splitOnSlash query).length > 1 := by
      rw [splitOnSlash_length_gt_one_iff query, h]
      simp
    have hsingle : splitOnSlash query = [query] := splitOnSlash_eq_singleton hlen
    have hcp : currentPathOf query = [] := by
      unfold currentPathOf
      rw [if_neg hlen]
    refine ⟨hcp, ?_, ?_⟩
    · unfold searchTermOf
      rw [hsingle]
      rfl
    · intro hroot
      unfold listedDir
      rw [hcp]
      unfold pathJoin
      rw [if_neg hroot, if_pos rfl]

/-- C8 witness: `"ab/cd"` decomposes as `"ab" ++ "/" ++ "cd"`, and a
slash-free query lists the root. -/
theorem C8_witness :
    "ab/cd".toList = currentPathOf "ab/cd".toList ++ '/' :: searchTermOf "ab/cd".toList ∧
    listedDir "r".toList "abc".toList = "r".toList :=
  ⟨(C8_query_split "r".toList "ab/cd".toList).2.2.2.1 (by decide),
   ((C8_query_split "r".toList "abc".toList).2.2.2.2 (by decide)).2.2 (by decide)⟩

/-- C9 (counterexample): the claim states that selecting "Search in This
Project" appends the project's name plus `/` to the query.  It does not
when a partial search term is present: the term is replaced.  With query
`"foo/ba"` and project name `"bar"`, the new query is `"foo/bar/"`, not
`"foo/ba" ++ "bar" ++ "/" = "foo/babar/"`. -/
theorem C9_counterexample :
    searchInProjectQuery "foo/ba".toList "bar".toList = "foo/bar/".toList ∧
    searchInProjectQuery "foo/ba".toList "bar".toList ≠
      "foo/ba".toList ++ "bar".toList ++ ['/'] := by
  constructor
  · decide
  · decide

/-- C9, amended: the action sets the query to
`join(currentPath, project.name) + "/"` — the current partial search term
after the last `/` is replaced by the selected project's name, not appended
to the query.  When the current search term is empty and the project's name
as well as every path segment of the query before the last `/` is a plain
segment (nonempty, not `.` or `..`, containing no separator — so that
`path.join` performs no normalisation and is plain `/`-concatenation,
making the `pathJoin` model exact), the new query equals the old query with
the project's name and a trailing `/` appended. -/
theorem C9_search_in_project (query name : List Char)
    (hname : plainSegment name = true)
    (hsegs : ∀ p ∈ (splitOnSlash query).dropLast, plainSegment p = true)
    (hterm : searchTermOf query = []) :
    searchInProjectQuery query name = query ++ name ++ ['/'] := by
  have hn : name ≠ [] := plainSegment_ne_nil hname
  by_cases hq : query = []
  · subst hq
    have hcp0 : currentPathOf [] = [] := rfl
    unfold searchInProjectQuery
    rw [hcp0]
    unfold pathJoin
    rw [if_pos rfl, if_neg hn]
    simp
  · have hlen : (splitOnSlash query).length > 1 := by
      by_contra hnot
      have hsingle := splitOnSlash_eq_singleton hnot
      have hst : searchTermOf query = query := by
        unfold searchTermOf
        rw [hsingle]
        rfl
      exact hq (by rw [← hst, hterm])
    have hdecomp := query_decomposition hlen
    rw [hterm] at hdecomp
    have hcp : currentPathOf query ≠ [] := by
      unfold currentPathOf
      rw [if_pos hlen]
      cases hdl : (splitOnSlash query).dropLast with
      | nil =>
          have hlend := List.length_dropLast (splitOnSlash query)
          rw [hdl] at hlend
          simp at hlend
          omega
      | cons p ps =>
          have hp : plainSegment p = true :=
            hsegs p (by rw [hdl]; exact List.mem_cons_self p ps)
          exact joinSlash_cons_ne_nil p ps (plainSegment_ne_nil hp)
    unfold searchInProjectQuery
    unfold pathJoin
    rw [if_neg hcp, if_neg hn]
    conv_rhs => rw [hdecomp]
    simp

/-- C9 witness: with query `"foo/"` (empty search term, plain segment
`"foo"`) and plain name `"bar"`, the new query is the old query with
`"bar/"` appended. -/
theorem C9_witness :
    searchInProjectQuery "foo/".toList "bar".toList
      = "foo/".toList ++ "bar".toList ++ ['/'] :=
  C9_search_in_project "foo/".toList "bar".toList (by decide) (by decide) (by decide)

/-- C10: for every search term — including terms containing regex
metacharacters — the built pattern string parses in the generated fragment
(every metacharacter is escaped, so construction never fails), it parses to
the term's characters as literal tokens interleaved with `.*`, and the
semantics of that token list is exactly the literal-character matcher used
by the filter: metacharacters are matched literally, never interpreted as
regex operators. -/
theorem C10_pattern_always_valid_and_literal (q : List Char) :
    tokenizePattern (buildPattern q) = some (litStarToks q) ∧
    ∀ n, toksTest (litStarToks q) n = rgxTest q n :=
  ⟨tokenizePattern_buildPattern q, toksTest_litStarToks q⟩
